import Mathlib

/-!
# Verification of the ring-lwe-encryption crate

A shallow embedding of the RLWE public-key encryption library: the field
parameter bundle (`intfield.rs`), polynomial arithmetic over
`Z_q[X]/(X^N+1)` (`polynomial.rs` together with the ring operations the
`poly_ring_xnp1` dependency provides, as the spec describes them in §4.2),
message validation (`message.rs`), encryption (`encrypt.rs`), decryption
(`decrypt.rs`), serde length checks (`encrypt.rs`/`decrypt.rs`/
`ciphertext.rs`), and key generation (crate root; see its doc comment).

Machine integers of the generic signed type `I` are modelled as `ℤ`; the
crate never handles overflow (`intfield.rs` says so explicitly), and the
spec makes overflow the caller's responsibility, so unbounded integers are
the faithful reading.  Rust's primitive `/` truncates toward zero; every
division the library performs has nonnegative operands for the parameter
domain `Q > 0`, where truncation agrees with Lean's `Int` division, which
is what the embedding uses.

Polynomials are coefficient lists (index i holds the coefficient of X^i).
`poly_ring_xnp1` normalizes stored coefficients by trimming trailing
zeros (decrypt.rs relies on this: its comment says the rounded polynomial
may have been shortened "due to coefficients trimming"), so constructors
and the in-place `coeffs_mut` mappers re-`trim` here.
-/

namespace RingLwe

/-- Coefficient of `X^k` in the list representation: stored value, `0` past
the stored length.  Trailing-zero trimming never changes `coeff`. -/
def coeff (p : List ℤ) (k : ℕ) : ℤ := p.getD k 0

/-- Trailing-zero normalization performed by `Polynomial::new` /
`from_coeffs` / `coeffs_mut` of the `poly_ring_xnp1` dependency (the spec,
§3, Invariants of RingElement: "trailing zeros may be trimmed"). -/
def trim : List ℤ → List ℤ
  | [] => []
  | c :: rest =>
      let r := trim rest
      if r = [] ∧ c = 0 then [] else c :: r

/-- The Cauchy-product coefficient: coefficient of `X^n` in the ordinary
polynomial product of coefficient streams `f` and `g`. -/
def cc (f g : ℕ → ℤ) (n : ℕ) : ℤ := ∑ i ∈ Finset.range (n + 1), f i * g (n - i)

/-- Coefficient-wise polynomial addition (`Add` on `poly_ring_xnp1`
polynomials; spec §4.2 "Addition and subtraction are coefficient-wise"). -/
def polyAdd (p q : List ℤ) : List ℤ :=
  (List.range (max p.length q.length)).map (fun i => coeff p i + coeff q i)

/-- Coefficient-wise polynomial subtraction. -/
def polySub (p q : List ℤ) : List ℤ :=
  (List.range (max p.length q.length)).map (fun i => coeff p i - coeff q i)

/-- Multiplication in `Z[X]/(X^N+1)` (`Mul` on `poly_ring_xnp1`
polynomials; spec §4.2: ordinary product, then "for i ≥ N, a coefficient at
position i contributes to position i−N with its sign negated").  For inputs
of degree < N the full product has degree < 2N−1, so folding once is the
whole reduction: coefficient k of the result is `conv_k − conv_{k+N}`. -/
def mulMod (N : ℕ) (p q : List ℤ) : List ℤ :=
  (List.range N).map
    (fun k => cc (coeff p) (coeff q) k - cc (coeff p) (coeff q) (k + N))

/-- `intfield.rs`: the `IntField` trait — the prime modulus `Q`, the noise
bound `B`, and the user-supplied centred modulo operation. -/
structure IntFieldP where
  Q : ℤ
  B : ℤ
  modulo : ℤ → ℤ

/-- The reference implementation of `IntField::modulo` given in the trait's
doc comment (and §4.1 of the spec): `a = x.rem_euclid(Q); if a > Q/2
{ a - Q } else { a }`. -/
def moduloRef (Q x : ℤ) : ℤ :=
  if Q / 2 < x % Q then x % Q - Q else x % Q

/-- `intfield.rs` `IntField::valid`: `2*B*B + B < Q/4` as written in the
source (the doc comment above it promises `2N·B² + B < Q/4`, but the body
has no access to `N` and omits the factor). -/
def valid (F : IntFieldP) : Bool := decide (2 * F.B * F.B + F.B < F.Q / 4)

/-- `polynomial.rs` `closest_integer_div_two`: `x.div_ceil(&2)` from the
`num` crate, i.e. ⌈x/2⌉, which equals ⌊(x+1)/2⌋ for every integer. -/
def closest_integer_div_two (x : ℤ) : ℤ := (x + 1) / 2

/-- `polynomial.rs` `scale_coefficients`: multiply every coefficient by
`closest_integer_div_two(Q)`. -/
def scale_coefficients (F : IntFieldP) (p : List ℤ) : List ℤ :=
  trim (p.map (fun c => closest_integer_div_two F.Q * c))

/-- `polynomial.rs` `round_coefficients`: per coefficient, `1` if
`|c| > closest_integer_div_two(Q) / 2`, else `0`. -/
def round_coefficients (F : IntFieldP) (p : List ℤ) : List ℤ :=
  trim (p.map (fun c => if closest_integer_div_two F.Q / 2 < |c| then 1 else 0))

/-- `polynomial.rs` `modulo_coefficients`: apply `Zq::modulo` to every
coefficient. -/
def modulo_coefficients (F : IntFieldP) (p : List ℤ) : List ℤ :=
  trim (p.map F.modulo)

/-- `polynomial.rs` `to_fixed_coeffs_vec`: pad with zeros up to length `N`
(never truncates). -/
def to_fixed_coeffs_vec (N : ℕ) (p : List ℤ) : List ℤ :=
  p ++ List.replicate (N - p.length) 0

/-- The `rand` crate's `rng.random_range(lo..=hi)`, modelled on its
contract: given a raw draw from the stream, produce a value in `[lo, hi]`
(faithful whenever `lo ≤ hi`, the sampler's documented precondition). -/
def genRange (lo hi x : ℤ) : ℤ := lo + (x - lo) % (hi - lo + 1)

/-- `polynomial.rs` `rand_polynomial_within`: `N` independent draws from
`[lower, upper]`, one per position, then `Polynomial::new` (which trims).
The randomness source is a stream `g` of raw draws. -/
def rand_polynomial_within (N : ℕ) (lo hi : ℤ) (g : ℕ → ℤ) : List ℤ :=
  trim ((List.range N).map (fun i => genRange lo hi (g i)))

/-- `polynomial.rs` `rand_polynomial`: coefficients uniform in
`[-(Q/2), Q/2]` (`upper = Q / 2; lower = -upper`). -/
def rand_polynomial (F : IntFieldP) (N : ℕ) (g : ℕ → ℤ) : List ℤ :=
  rand_polynomial_within N (-(F.Q / 2)) (F.Q / 2) g

/-- `polynomial.rs` `small_polynomial`: coefficients uniform in `[-B, B]`. -/
def small_polynomial (F : IntFieldP) (N : ℕ) (g : ℕ → ℤ) : List ℤ :=
  rand_polynomial_within N (-F.B) F.B g

/-- Modelled from the spec: `key_gen` lives in the crate root (bench.rs
calls the root's API), which is absent from `src/` — the `lib.rs` present
there is a stale pre-refactor revision of the whole crate (its `IntField`
has no `B`, it uses the old `rand 0.8` API the other modules no longer
use, and it declares none of the modules).  Spec §4.4:
`a ← uniform_in([−⌊Q/2⌋, ⌊Q/2⌋], N)`; `s, e ← uniform_in([−B, B], N)`;
`t = mod_coeffs(mod_coeffs(a·s) + e)`; returns `((a, t), s)`.  The stale
`lib.rs` key_gen has the same `t` formula.  The rng is consumed
sequentially: `a` uses draws `0..N`, `s` draws `N..2N`, `e` draws `2N..3N`. -/
def key_gen (F : IntFieldP) (N : ℕ) (g : ℕ → ℤ) :
    (List ℤ × List ℤ) × List ℤ :=
  let a := rand_polynomial F N (fun i => g i)
  let s := small_polynomial F N (fun i => g (N + i))
  let e := small_polynomial F N (fun i => g (2 * N + i))
  let t := modulo_coefficients F (polyAdd (modulo_coefficients F (mulMod N a s)) e)
  ((a, t), s)

/-- `encrypt.rs` `EncryptKey::encrypt`: the key is `(a, t)`, the message a
raw coefficient vector (no validation happens here — the asserts are
commented out "for performance").  `r`, `e2`, `e3` consume the rng
sequentially; `u = mod(mod(a·r) + e2)`;
`v = mod(mod(mod(t·r) + e3) + ⌈q/2⌉·m)`. -/
def encrypt (F : IntFieldP) (N : ℕ) (a t : List ℤ) (m : List ℤ) (g : ℕ → ℤ) :
    List ℤ × List ℤ :=
  let r := small_polynomial F N (fun i => g i)
  let e2 := small_polynomial F N (fun i => g (N + i))
  let e3 := small_polynomial F N (fun i => g (2 * N + i))
  let u := modulo_coefficients F (polyAdd (modulo_coefficients F (mulMod N a r)) e2)
  let q_div_2_m := scale_coefficients F (trim m)
  let v := modulo_coefficients F
    (polyAdd (modulo_coefficients F (polyAdd (modulo_coefficients F (mulMod N t r)) e3))
      q_div_2_m)
  (u, v)

/-- `decrypt.rs` `DecryptKey::decrypt`: `m = mod(v − mod(u·s))`, round each
coefficient to a bit, pad to length `N`. -/
def decrypt (F : IntFieldP) (N : ℕ) (s : List ℤ) (c : List ℤ × List ℤ) :
    List ℤ :=
  let m := modulo_coefficients F (polySub c.2 (modulo_coefficients F (mulMod N c.1 s)))
  to_fixed_coeffs_vec N (round_coefficients F m)

/-- `message.rs` `Message::new`: panics (here: `none`) unless the vector
has length ≤ N and every entry is 0 or 1. -/
def messageNew (N : ℕ) (data : List ℤ) : Option (List ℤ) :=
  if data.length ≤ N ∧ ∀ x ∈ data, x = 0 ∨ x = 1 then some data else none

/-- `encrypt.rs` serde `Deserialize` for `EncryptKey`: require length
exactly `2N`, else an error carrying (expected, actual); on success split
at `N` into `(a, t)` (each half through `Polynomial::new`). -/
def encryptKeyDeserialize (N : ℕ) (vec : List ℤ) :
    Except (ℕ × ℕ) (List ℤ × List ℤ) :=
  if vec.length = 2 * N then Except.ok (trim (vec.take N), trim (vec.drop N))
  else Except.error (2 * N, vec.length)

/-- `ciphertext.rs` serde `Deserialize` for `CipherText`: length exactly
`2N`, split into `(u, v)`. -/
def cipherTextDeserialize (N : ℕ) (vec : List ℤ) :
    Except (ℕ × ℕ) (List ℤ × List ℤ) :=
  if vec.length = 2 * N then Except.ok (trim (vec.take N), trim (vec.drop N))
  else Except.error (2 * N, vec.length)

/-- `decrypt.rs` serde `Deserialize` for `DecryptKey`: length exactly `N`. -/
def decryptKeyDeserialize (N : ℕ) (vec : List ℤ) :
    Except (ℕ × ℕ) (List ℤ) :=
  if vec.length = N then Except.ok (trim vec) else Except.error (N, vec.length)

/-! ## Unfolding equations for the composed operations -/

theorem key_gen_a (F : IntFieldP) (N : ℕ) (g : ℕ → ℤ) :
    (key_gen F N g).1.1 = rand_polynomial F N (fun i => g i) := rfl

theorem key_gen_s (F : IntFieldP) (N : ℕ) (g : ℕ → ℤ) :
    (key_gen F N g).2 = small_polynomial F N (fun i => g (N + i)) := rfl

theorem key_gen_t (F : IntFieldP) (N : ℕ) (g : ℕ → ℤ) :
    (key_gen F N g).1.2 = modulo_coefficients F
      (polyAdd (modulo_coefficients F (mulMod N (rand_polynomial F N fun i => g i)
          (small_polynomial F N fun i => g (N + i))))
        (small_polynomial F N fun i => g (2 * N + i))) := rfl

theorem encrypt_fst (F : IntFieldP) (N : ℕ) (a t m : List ℤ) (g : ℕ → ℤ) :
    (encrypt F N a t m g).1 = modulo_coefficients F
      (polyAdd (modulo_coefficients F (mulMod N a (small_polynomial F N fun i => g i)))
        (small_polynomial F N fun i => g (N + i))) := rfl

theorem encrypt_snd (F : IntFieldP) (N : ℕ) (a t m : List ℤ) (g : ℕ → ℤ) :
    (encrypt F N a t m g).2 = modulo_coefficients F
      (polyAdd (modulo_coefficients F
          (polyAdd (modulo_coefficients F (mulMod N t (small_polynomial F N fun i => g i)))
            (small_polynomial F N fun i => g (2 * N + i))))
        (scale_coefficients F (trim m))) := rfl

theorem decrypt_eq (F : IntFieldP) (N : ℕ) (s u v : List ℤ) :
    decrypt F N s (u, v) = to_fixed_coeffs_vec N (round_coefficients F
      (modulo_coefficients F (polySub v (modulo_coefficients F (mulMod N u s))))) := rfl

/-! ## Basic coefficient lemmas -/

theorem coeff_nil (k : ℕ) : coeff [] k = 0 := rfl

theorem coeff_eq_zero_of_length_le {p : List ℤ} {k : ℕ} (h : p.length ≤ k) :
    coeff p k = 0 :=
  List.getD_eq_default _ _ h

theorem coeff_rangeMap (f : ℕ → ℤ) (n k : ℕ) :
    coeff ((List.range n).map f) k = if k < n then f k else 0 := by
  unfold coeff
  rcases lt_or_le k n with h | h
  · rw [List.getD_eq_getElem _ _ (by simpa using h), if_pos h]
    simp
  · rw [List.getD_eq_default _ _ (by simpa using h), if_neg (not_lt.mpr h)]

theorem coeff_trim (p : List ℤ) (k : ℕ) : coeff (trim p) k = coeff p k := by
  induction p generalizing k with
  | nil => rfl
  | cons c rest ih =>
      show coeff (if trim rest = [] ∧ c = 0 then [] else c :: trim rest) k = _
      split
      next h =>
        rcases h with ⟨h1, h2⟩
        cases k with
        | zero => simp [coeff, h2]
        | succ k =>
            have := ih k
            rw [h1] at this
            simpa [coeff] using this
      next =>
        cases k with
        | zero => rfl
        | succ k => simpa [coeff] using ih k

theorem trim_length_le (p : List ℤ) : (trim p).length ≤ p.length := by
  induction p with
  | nil => simp [trim]
  | cons c rest ih =>
      show (if trim rest = [] ∧ c = 0 then [] else c :: trim rest).length ≤ _
      split
      · simp
      · simpa using ih

theorem mem_trim {x : ℤ} {p : List ℤ} (h : x ∈ trim p) : x ∈ p := by
  induction p with
  | nil => simp [trim] at h
  | cons c rest ih =>
      have h' : x ∈ (if trim rest = [] ∧ c = 0 then [] else c :: trim rest) := h
      split at h'
      · simp at h'
      · rcases List.mem_cons.mp h' with h'' | h''
        · exact h'' ▸ List.mem_cons_self _ _
        · exact List.mem_cons_of_mem _ (ih h'')

theorem trim_idem (p : List ℤ) : trim (trim p) = trim p := by
  induction p with
  | nil => rfl
  | cons c rest ih =>
      show trim (if trim rest = [] ∧ c = 0 then [] else c :: trim rest)
        = (if trim rest = [] ∧ c = 0 then [] else c :: trim rest)
      split
      · rfl
      next h =>
        show (if trim (trim rest) = [] ∧ c = 0 then [] else c :: trim (trim rest))
          = c :: trim rest
        rw [ih, if_neg h]

theorem map_id_of_mem {l : List ℤ} {f : ℤ → ℤ} (h : ∀ x ∈ l, f x = x) :
    l.map f = l := by
  induction l with
  | nil => rfl
  | cons c rest ih =>
      rw [List.map_cons, h c (List.mem_cons_self _ _),
        ih (fun x hx => h x (List.mem_cons_of_mem _ hx))]

theorem coeff_polyAdd (p q : List ℤ) (k : ℕ) :
    coeff (polyAdd p q) k = coeff p k + coeff q k := by
  unfold polyAdd
  rw [coeff_rangeMap]
  split
  · rfl
  next h =>
    have hp : p.length ≤ k := le_trans (le_max_left _ _) (not_lt.mp h)
    have hq : q.length ≤ k := le_trans (le_max_right _ _) (not_lt.mp h)
    rw [coeff_eq_zero_of_length_le hp, coeff_eq_zero_of_length_le hq, add_zero]

theorem coeff_polySub (p q : List ℤ) (k : ℕ) :
    coeff (polySub p q) k = coeff p k - coeff q k := by
  unfold polySub
  rw [coeff_rangeMap]
  split
  · rfl
  next h =>
    have hp : p.length ≤ k := le_trans (le_max_left _ _) (not_lt.mp h)
    have hq : q.length ≤ k := le_trans (le_max_right _ _) (not_lt.mp h)
    rw [coeff_eq_zero_of_length_le hp, coeff_eq_zero_of_length_le hq, sub_zero]

theorem polyAdd_length (p q : List ℤ) :
    (polyAdd p q).length = max p.length q.length := by
  simp [polyAdd]

theorem polySub_length (p q : List ℤ) :
    (polySub p q).length = max p.length q.length := by
  simp [polySub]

theorem mulMod_length (N : ℕ) (p q : List ℤ) : (mulMod N p q).length = N := by
  simp [mulMod]

theorem coeff_mulMod (N : ℕ) (p q : List ℤ) (k : ℕ) :
    coeff (mulMod N p q) k =
      if k < N then cc (coeff p) (coeff q) k - cc (coeff p) (coeff q) (k + N)
      else 0 := by
  unfold mulMod
  rw [coeff_rangeMap]

theorem coeff_mapTrim (f : ℤ → ℤ) (hf : f 0 = 0) (p : List ℤ) (k : ℕ) :
    coeff (trim (p.map f)) k = f (coeff p k) := by
  rw [coeff_trim]
  unfold coeff
  rcases lt_or_le k p.length with h | h
  · rw [List.getD_eq_getElem _ _ (by simpa using h),
      List.getD_eq_getElem _ _ (by simpa using h)]
    simp
  · rw [List.getD_eq_default _ _ (by simpa using h),
      List.getD_eq_default _ _ (by simpa using h), hf]

theorem mapTrim_length_le (f : ℤ → ℤ) (p : List ℤ) :
    (trim (p.map f)).length ≤ p.length := by
  simpa using trim_length_le (p.map f)

theorem to_fixed_coeffs_vec_length {N : ℕ} {p : List ℤ} (h : p.length ≤ N) :
    (to_fixed_coeffs_vec N p).length = N := by
  simp [to_fixed_coeffs_vec, Nat.add_sub_cancel' h]

theorem coeff_to_fixed_coeffs_vec (N : ℕ) (p : List ℤ) (k : ℕ) :
    coeff (to_fixed_coeffs_vec N p) k = coeff p k := by
  unfold to_fixed_coeffs_vec coeff
  rcases lt_or_le k p.length with h | h
  · rw [List.getD_append _ _ _ _ h]
  · rw [List.getD_append_right _ _ _ _ h, List.getD_eq_default _ _ h]
    rcases lt_or_le (k - p.length) (N - p.length) with h2 | h2
    · rw [List.getD_eq_getElem _ _ (by simpa using h2)]
      simp
    · rw [List.getD_eq_default _ _ (by simpa using h2)]

/-! ## The reference modulo: congruence, range, idempotence -/

theorem moduloRef_zero {Q : ℤ} (hQ : 0 < Q) : moduloRef Q 0 = 0 := by
  have h2 : (0 : ℤ) ≤ Q / 2 := Int.ediv_nonneg hQ.le (by norm_num)
  simp [moduloRef, not_lt.mpr h2]

theorem moduloRef_modEq (Q x : ℤ) : moduloRef Q x ≡ x [ZMOD Q] := by
  unfold moduloRef Int.ModEq
  split
  · simp [Int.sub_emod, Int.emod_emod_of_dvd]
  · simp [Int.emod_emod_of_dvd]

/-- The reference modulo lands in the centred canonical range `(-Q/2, Q/2]`
(stated multiplied by 2 to stay in integers). -/
theorem moduloRef_range {Q : ℤ} (hQ : 0 < Q) (x : ℤ) :
    -Q < 2 * moduloRef Q x ∧ 2 * moduloRef Q x ≤ Q := by
  have ha0 : 0 ≤ x % Q := Int.emod_nonneg x hQ.ne'
  have haQ : x % Q < Q := Int.emod_lt_of_pos x hQ
  have hdiv : Q = 2 * (Q / 2) + Q % 2 := (Int.ediv_add_emod Q 2).symm
  have hr0 : 0 ≤ Q % 2 := Int.emod_nonneg Q (by norm_num)
  have hr1 : Q % 2 < 2 := Int.emod_lt_of_pos Q (by norm_num)
  unfold moduloRef
  split
  next h => constructor <;> omega
  next h => constructor <;> omega

/-- For odd `Q`, the centred representative satisfies `2|·| ≤ Q - 1`. -/
theorem moduloRef_abs {Q : ℤ} (hQ : 0 < Q) (hodd : Q % 2 = 1) (x : ℤ) :
    2 * |moduloRef Q x| ≤ Q - 1 := by
  obtain ⟨h1, h2⟩ := moduloRef_range hQ x
  rcases abs_cases (moduloRef Q x) with ⟨he, _⟩ | ⟨he, _⟩ <;> rw [he] <;> omega

theorem moduloRef_idem {Q : ℤ} (hQ : 0 < Q) (x : ℤ) :
    moduloRef Q (moduloRef Q x) = moduloRef Q x := by
  obtain ⟨h1, h2⟩ := moduloRef_range hQ x
  set v := moduloRef Q x with hv
  have hdiv : Q = 2 * (Q / 2) + Q % 2 := (Int.ediv_add_emod Q 2).symm
  have hr0 : 0 ≤ Q % 2 := Int.emod_nonneg Q (by norm_num)
  have hr1 : Q % 2 < 2 := Int.emod_lt_of_pos Q (by norm_num)
  rcases le_or_lt 0 v with hpos | hneg
  · have hvQ : v < Q := by omega
    have : v % Q = v := Int.emod_eq_of_lt hpos hvQ
    unfold moduloRef
    rw [this, if_neg (by omega)]
  · have : v % Q = v + Q := by
      have h0 : 0 ≤ v + Q := by omega
      have hQ' : v + Q < Q := by omega
      calc v % Q = (v + Q) % Q := by simp [Int.add_emod, Int.emod_emod_of_dvd]
        _ = v + Q := Int.emod_eq_of_lt h0 hQ'
    unfold moduloRef
    rw [this, if_pos (by omega)]
    omega

/-- Two integers congruent mod `Q` and both of magnitude at most
`(Q-1)/2` are equal. -/
theorem eq_of_modEq_of_small {Q a b : ℤ} (hQ : 0 < Q) (h : a ≡ b [ZMOD Q])
    (ha : 2 * |a| ≤ Q - 1) (hb : 2 * |b| ≤ Q - 1) : a = b := by
  have hd : Q ∣ b - a := h.dvd
  rcases hd with ⟨c, hc⟩
  have habs : |b - a| < Q := by
    rcases abs_cases a with ⟨e1, _⟩ | ⟨e1, _⟩ <;> rcases abs_cases b with ⟨e2, _⟩ | ⟨e2, _⟩ <;>
      rcases abs_cases (b - a) with ⟨e3, _⟩ | ⟨e3, _⟩ <;> omega
  have hc0 : c = 0 := by
    by_contra hne
    have h1 : 1 ≤ |c| := by
      rcases abs_cases c with ⟨e, _⟩ | ⟨e, _⟩ <;> omega
    have : Q * 1 ≤ Q * |c| := mul_le_mul_of_nonneg_left h1 hQ.le
    rw [hc, abs_mul, abs_of_pos hQ] at habs
    omega
  rw [hc0, mul_zero] at hc
  omega

/-! ## Sampling -/

theorem genRange_mem {lo hi : ℤ} (h : lo ≤ hi) (x : ℤ) :
    lo ≤ genRange lo hi x ∧ genRange lo hi x ≤ hi := by
  have hm : 0 < hi - lo + 1 := by omega
  have h0 : 0 ≤ (x - lo) % (hi - lo + 1) := Int.emod_nonneg _ hm.ne'
  have h1 : (x - lo) % (hi - lo + 1) < hi - lo + 1 := Int.emod_lt_of_pos _ hm
  unfold genRange
  omega

theorem rand_polynomial_within_length (N : ℕ) (lo hi : ℤ) (g : ℕ → ℤ) :
    (rand_polynomial_within N lo hi g).length ≤ N := by
  simpa using trim_length_le ((List.range N).map (fun i => genRange lo hi (g i)))

theorem coeff_rand_polynomial_within (N : ℕ) (lo hi : ℤ) (g : ℕ → ℤ) (k : ℕ) :
    coeff (rand_polynomial_within N lo hi g) k =
      if k < N then genRange lo hi (g k) else 0 := by
  unfold rand_polynomial_within
  rw [coeff_trim, coeff_rangeMap]

theorem mem_rand_polynomial_within {N : ℕ} {lo hi : ℤ} {g : ℕ → ℤ} {x : ℤ}
    (hlh : lo ≤ hi) (h : x ∈ rand_polynomial_within N lo hi g) :
    lo ≤ x ∧ x ≤ hi := by
  have h' := mem_trim h
  rcases List.mem_map.mp h' with ⟨i, _, rfl⟩
  exact genRange_mem hlh (g i)

theorem coeff_abs_le_of_mem_bounds {p : List ℤ} {b : ℤ}
    (hb : 0 ≤ b) (h : ∀ x ∈ p, -b ≤ x ∧ x ≤ b) (k : ℕ) : |coeff p k| ≤ b := by
  rcases lt_or_le k p.length with hk | hk
  · have hmem : coeff p k ∈ p := by
      rw [coeff, List.getD_eq_getElem _ _ (by simpa using hk)]
      exact List.getElem_mem _
    obtain ⟨h1, h2⟩ := h _ hmem
    rw [abs_le]; exact ⟨h1, h2⟩
  · rw [coeff_eq_zero_of_length_le hk]
    simpa using hb

/-! ## Convolution algebra

`cc` is the ordinary (Cauchy) product of coefficient streams; identifying
streams with formal power series turns associativity/commutativity of the
product into ring facts of `PowerSeries ℤ`. -/

theorem modEq_sum {n : ℤ} {s : Finset ℕ} {f g : ℕ → ℤ}
    (h : ∀ i ∈ s, f i ≡ g i [ZMOD n]) :
    (∑ i ∈ s, f i) ≡ (∑ i ∈ s, g i) [ZMOD n] := by
  classical
  induction s using Finset.induction_on with
  | empty => rfl
  | insert hmem ih =>
      rw [Finset.sum_insert hmem, Finset.sum_insert hmem]
      exact (h _ (Finset.mem_insert_self _ _)).add
        (ih fun i hi => h i (Finset.mem_insert_of_mem hi))

theorem cc_modEq_left {n : ℤ} (f f' : ℕ → ℤ) (h : ∀ i, f i ≡ f' i [ZMOD n])
    (g : ℕ → ℤ) (m : ℕ) : cc f g m ≡ cc f' g m [ZMOD n] :=
  modEq_sum fun i _ => (h i).mul_right _

theorem cc_add_left (f f' g : ℕ → ℤ) (m : ℕ) :
    cc (fun i => f i + f' i) g m = cc f g m + cc f' g m := by
  unfold cc
  rw [← Finset.sum_add_distrib]
  exact Finset.sum_congr rfl fun i _ => add_mul _ _ _

theorem cc_eq_zero {N : ℕ} {f g : ℕ → ℤ} (hf : ∀ i, N ≤ i → f i = 0)
    (hg : ∀ i, N ≤ i → g i = 0) {m : ℕ} (hm : 2 * N - 1 ≤ m) : cc f g m = 0 := by
  unfold cc
  apply Finset.sum_eq_zero
  intro i hi
  have hi' : i ≤ m := by simpa using Nat.lt_succ_iff.mp (Finset.mem_range.mp hi)
  rcases le_or_lt N i with h | h
  · rw [hf i h, zero_mul]
  · rw [hg (m - i) (by omega), mul_zero]

theorem mk_cc (f g : ℕ → ℤ) :
    PowerSeries.mk (cc f g) = PowerSeries.mk f * PowerSeries.mk g := by
  ext n
  rw [PowerSeries.coeff_mk, PowerSeries.coeff_mul,
    Finset.Nat.sum_antidiagonal_eq_sum_range_succ_mk]
  unfold cc
  exact Finset.sum_congr rfl fun i _ => by rw [PowerSeries.coeff_mk, PowerSeries.coeff_mk]

theorem cc_exchange (f g h : ℕ → ℤ) : cc (cc f g) h = cc (cc f h) g := by
  have e : PowerSeries.mk (cc (cc f g) h) = PowerSeries.mk (cc (cc f h) g) := by
    rw [mk_cc, mk_cc, mk_cc, mk_cc]
    ring
  funext n
  have e' := congrArg (PowerSeries.coeff ℤ n) e
  simpa [PowerSeries.coeff_mk] using e'

/-- Reducing `mod X^N + 1` before a further `cc`-product and reducing once
more is the same as reducing the unreduced double product, provided the
other factor is supported below `N` and `u` is supported below `2N-1`. -/
theorem reduce_cc (N k : ℕ) (u h : ℕ → ℤ) (hk : k < N)
    (hh : ∀ i, N ≤ i → h i = 0) (hu : ∀ i, 2 * N - 1 ≤ i → u i = 0) :
    cc (fun i => if i < N then u i - u (i + N) else 0) h k
      - cc (fun i => if i < N then u i - u (i + N) else 0) h (k + N)
    = cc u h k - cc u h (k + N) + cc u h (k + 2 * N) := by
  set F : ℕ → ℤ := fun i => if i < N then u i - u (i + N) else 0 with hF
  have hA : cc F h k
      = cc u h k - ∑ i ∈ Finset.range (k + 1), u (i + N) * h (k - i) := by
    unfold cc
    rw [← Finset.sum_sub_distrib]
    apply Finset.sum_congr rfl
    intro i hi
    have hiN : i < N := by
      have := Finset.mem_range.mp hi
      omega
    rw [hF]
    simp only [if_pos hiN]
    rw [sub_mul]
  have hB : cc F h (k + N)
      = ∑ i ∈ Finset.range N, (u i - u (i + N)) * h (k + N - i) := by
    unfold cc
    have hsub : Finset.range N ⊆ Finset.range (k + N + 1) :=
      Finset.range_subset.mpr (by omega)
    have hzero : ∀ i ∈ Finset.range (k + N + 1), i ∉ Finset.range N →
        F i * h (k + N - i) = 0 := by
      intro i _ hi
      have hiN : ¬ i < N := by simpa using hi
      rw [hF]
      simp [hiN]
    rw [← Finset.sum_subset hsub hzero]
    apply Finset.sum_congr rfl
    intro i hi
    have hiN : i < N := Finset.mem_range.mp hi
    rw [hF]
    simp only [if_pos hiN]
  have hsplit : cc u h (k + N)
      = ∑ i ∈ Finset.range N, u i * h (k + N - i)
        + ∑ i ∈ Finset.range (k + 1), u (i + N) * h (k - i) := by
    unfold cc
    have h1 : ∑ i ∈ Finset.Ico 0 N, u i * h (k + N - i)
        + ∑ i ∈ Finset.Ico N (k + N + 1), u i * h (k + N - i)
        = ∑ i ∈ Finset.Ico 0 (k + N + 1), u i * h (k + N - i) :=
      Finset.sum_Ico_consecutive _ (by omega) (by omega)
    have h2 : ∑ i ∈ Finset.Ico N (k + N + 1), u i * h (k + N - i)
        = ∑ i ∈ Finset.range (k + N + 1 - N), u (N + i) * h (k + N - (N + i)) :=
      Finset.sum_Ico_eq_sum_range (fun i => u i * h (k + N - i)) N (k + N + 1)
    have h3 : ∑ i ∈ Finset.range (k + N + 1 - N), u (N + i) * h (k + N - (N + i))
        = ∑ i ∈ Finset.range (k + 1), u (i + N) * h (k - i) := by
      have hrange : k + N + 1 - N = k + 1 := by omega
      rw [hrange]
      apply Finset.sum_congr rfl
      intro i hi
      have he : k + N - (N + i) = k - i := by omega
      rw [he, Nat.add_comm N i]
    calc ∑ i ∈ Finset.range (k + N + 1), u i * h (k + N - i)
        = ∑ i ∈ Finset.Ico 0 (k + N + 1), u i * h (k + N - i) := by
          rw [Finset.range_eq_Ico]
      _ = ∑ i ∈ Finset.Ico 0 N, u i * h (k + N - i)
            + ∑ i ∈ Finset.Ico N (k + N + 1), u i * h (k + N - i) := h1.symm
      _ = ∑ i ∈ Finset.range N, u i * h (k + N - i)
            + ∑ i ∈ Finset.range (k + 1), u (i + N) * h (k - i) := by
          rw [← Finset.range_eq_Ico, h2, h3]
  have htail : cc u h (k + 2 * N)
      = ∑ i ∈ Finset.range N, u (i + N) * h (k + N - i) := by
    unfold cc
    have hsub : Finset.Ico N (2 * N) ⊆ Finset.range (k + 2 * N + 1) := by
      intro i hi
      have := Finset.mem_Ico.mp hi
      exact Finset.mem_range.mpr (by omega)
    have hzero : ∀ i ∈ Finset.range (k + 2 * N + 1), i ∉ Finset.Ico N (2 * N) →
        u i * h (k + 2 * N - i) = 0 := by
      intro i hi hni
      have hi' := Finset.mem_range.mp hi
      have : ¬ (N ≤ i ∧ i < 2 * N) := by simpa using hni
      rcases le_or_lt N i with hc | hc
      · have : 2 * N ≤ i := by omega
        rw [hu i (by omega), zero_mul]
      · rw [hh (k + 2 * N - i) (by omega), mul_zero]
    rw [← Finset.sum_subset hsub hzero]
    have h2 : ∑ i ∈ Finset.Ico N (2 * N), u i * h (k + 2 * N - i)
        = ∑ i ∈ Finset.range (2 * N - N), u (N + i) * h (k + 2 * N - (N + i)) :=
      Finset.sum_Ico_eq_sum_range (fun i => u i * h (k + 2 * N - i)) N (2 * N)
    have hrange : 2 * N - N = N := by omega
    rw [h2, hrange]
    apply Finset.sum_congr rfl
    intro i hi
    have hiN : i < N := Finset.mem_range.mp hi
    have : k + 2 * N - (N + i) = k + N - i := by omega
    rw [this, Nat.add_comm N i]
  have hBsplit : ∑ i ∈ Finset.range N, (u i - u (i + N)) * h (k + N - i)
      = ∑ i ∈ Finset.range N, u i * h (k + N - i)
        - ∑ i ∈ Finset.range N, u (i + N) * h (k + N - i) := by
    rw [← Finset.sum_sub_distrib]
    exact Finset.sum_congr rfl fun i _ => sub_mul _ _ _
  rw [hA, hB, hBsplit, hsplit, htail]
  ring

/-- Lists of equal length with equal `coeff`s are equal. -/
theorem eq_of_coeff_eq {p q : List ℤ} (hl : p.length = q.length)
    (h : ∀ k < p.length, coeff p k = coeff q k) : p = q := by
  apply List.ext_getElem hl
  intro k hk1 hk2
  have hc := h k hk1
  rwa [coeff, coeff, List.getD_eq_getElem _ _ hk1, List.getD_eq_getElem _ _ hk2] at hc

/-- The negacyclic exchange law `(a·s)·r = (a·r)·s` in `Z[X]/(X^N+1)` for
stored polynomials of length at most `N` — the only fragment of
associativity/commutativity the correctness argument needs. -/
theorem mulMod_exchange {N : ℕ} {a s r : List ℤ} (ha : a.length ≤ N)
    (hs : s.length ≤ N) (hr : r.length ≤ N) :
    mulMod N (mulMod N a s) r = mulMod N (mulMod N a r) s := by
  have hfa : ∀ i, N ≤ i → coeff a i = 0 :=
    fun i hi => coeff_eq_zero_of_length_le (ha.trans hi)
  have hfs : ∀ i, N ≤ i → coeff s i = 0 :=
    fun i hi => coeff_eq_zero_of_length_le (hs.trans hi)
  have hfr : ∀ i, N ≤ i → coeff r i = 0 :=
    fun i hi => coeff_eq_zero_of_length_le (hr.trans hi)
  apply eq_of_coeff_eq (by rw [mulMod_length, mulMod_length])
  intro k hk
  have hkN : k < N := by
    rwa [mulMod_length] at hk
  have hcs : coeff (mulMod N a s)
      = fun i => if i < N then cc (coeff a) (coeff s) i
          - cc (coeff a) (coeff s) (i + N) else 0 :=
    funext fun i => coeff_mulMod N a s i
  have hcr : coeff (mulMod N a r)
      = fun i => if i < N then cc (coeff a) (coeff r) i
          - cc (coeff a) (coeff r) (i + N) else 0 :=
    funext fun i => coeff_mulMod N a r i
  rw [coeff_mulMod, coeff_mulMod, if_pos hkN, if_pos hkN, hcs, hcr]
  rw [reduce_cc N k (cc (coeff a) (coeff s)) (coeff r) hkN hfr
      (fun i hi => cc_eq_zero hfa hfs hi),
    reduce_cc N k (cc (coeff a) (coeff r)) (coeff s) hkN hfs
      (fun i hi => cc_eq_zero hfa hfr hi),
    cc_exchange (coeff a) (coeff s) (coeff r)]

/-! ## Noise bounds -/

theorem mulMod_coeff_abs_le {N : ℕ} {f g : ℕ → ℤ} {Bf Bg : ℤ}
    (hf : ∀ i, |f i| ≤ Bf) (hfN : ∀ i, N ≤ i → f i = 0)
    (hg : ∀ i, |g i| ≤ Bg) (hgN : ∀ i, N ≤ i → g i = 0)
    {k : ℕ} (hk : k < N) :
    |cc f g k - cc f g (k + N)| ≤ (N : ℤ) * (Bf * Bg) := by
  have hBf0 : 0 ≤ Bf := le_trans (abs_nonneg _) (hf 0)
  have hBg0 : 0 ≤ Bg := le_trans (abs_nonneg _) (hg 0)
  have hC0 : 0 ≤ Bf * Bg := mul_nonneg hBf0 hBg0
  have hterm : ∀ i m : ℕ, |f i * g m| ≤ Bf * Bg := fun i m => by
    rw [abs_mul]
    exact mul_le_mul (hf i) (hg m) (abs_nonneg _) hBf0
  have hP1 : |cc f g k| ≤ ((k + 1 : ℕ) : ℤ) * (Bf * Bg) := by
    calc |cc f g k| ≤ ∑ i ∈ Finset.range (k + 1), |f i * g (k - i)| :=
          Finset.abs_sum_le_sum_abs _ _
      _ ≤ ∑ _i ∈ Finset.range (k + 1), Bf * Bg :=
          Finset.sum_le_sum fun i _ => hterm i (k - i)
      _ = ((k + 1 : ℕ) : ℤ) * (Bf * Bg) := by
          rw [Finset.sum_const, Finset.card_range, nsmul_eq_mul]
  have hP2 : |cc f g (k + N)| ≤ ((N - 1 - k : ℕ) : ℤ) * (Bf * Bg) := by
    have hsub : Finset.Ioc k (N - 1) ⊆ Finset.range (k + N + 1) := by
      intro i hi
      have := Finset.mem_Ioc.mp hi
      exact Finset.mem_range.mpr (by omega)
    have hzero : ∀ i ∈ Finset.range (k + N + 1), i ∉ Finset.Ioc k (N - 1) →
        |f i * g (k + N - i)| = 0 := by
      intro i hi hni
      have hni' : ¬ (k < i ∧ i ≤ N - 1) := by simpa using hni
      rcases le_or_lt i k with hc | hc
      · rw [hgN (k + N - i) (by omega), mul_zero, abs_zero]
      · rw [hfN i (by omega), zero_mul, abs_zero]
    calc |cc f g (k + N)|
        ≤ ∑ i ∈ Finset.range (k + N + 1), |f i * g (k + N - i)| :=
          Finset.abs_sum_le_sum_abs _ _
      _ = ∑ i ∈ Finset.Ioc k (N - 1), |f i * g (k + N - i)| :=
          (Finset.sum_subset hsub hzero).symm
      _ ≤ ∑ _i ∈ Finset.Ioc k (N - 1), Bf * Bg :=
          Finset.sum_le_sum fun i _ => hterm i (k + N - i)
      _ = ((N - 1 - k : ℕ) : ℤ) * (Bf * Bg) := by
          rw [Finset.sum_const, Nat.card_Ioc, nsmul_eq_mul]
  have htri : |cc f g k - cc f g (k + N)| ≤ |cc f g k| + |cc f g (k + N)| := by
    have := abs_add (cc f g k) (-(cc f g (k + N)))
    rwa [abs_neg, ← sub_eq_add_neg] at this
  have hcard : ((k + 1 : ℕ) : ℤ) + ((N - 1 - k : ℕ) : ℤ) = (N : ℤ) := by omega
  have hmul : ((k + 1 : ℕ) : ℤ) * (Bf * Bg) + ((N - 1 - k : ℕ) : ℤ) * (Bf * Bg)
      = (N : ℤ) * (Bf * Bg) := by
    rw [← add_mul, hcard]
  linarith

/-! ## Decryption correctness

The central lemma: with the reference modulo, an odd modulus, the
documented parameter bound `2N·B² + B < ⌊Q/4⌋`, noise polynomials bounded
by `B`, and a bit message, `decrypt` applied to the encryption under the
key produced from `a, s, e` recovers the message padded to length `N`. -/

theorem decrypt_correct (F : IntFieldP) (N : ℕ) (a s e r e2 e3 m t u v : List ℤ)
    (hmod : F.modulo = moduloRef F.Q) (hodd : F.Q % 2 = 1) (hN : 0 < N)
    (hB : 1 ≤ F.B) (hQ4 : 2 * (N : ℤ) * F.B ^ 2 + F.B < F.Q / 4)
    (ha : a.length ≤ N) (hs : s.length ≤ N) (he : e.length ≤ N)
    (hr : r.length ≤ N) (he2 : e2.length ≤ N) (he3 : e3.length ≤ N)
    (hsB : ∀ i, |coeff s i| ≤ F.B) (heB : ∀ i, |coeff e i| ≤ F.B)
    (hrB : ∀ i, |coeff r i| ≤ F.B) (he2B : ∀ i, |coeff e2 i| ≤ F.B)
    (he3B : ∀ i, |coeff e3 i| ≤ F.B)
    (hmlen : m.length ≤ N) (hbits : ∀ x ∈ m, x = 0 ∨ x = 1)
    (ht : t = modulo_coefficients F (polyAdd (modulo_coefficients F (mulMod N a s)) e))
    (hu : u = modulo_coefficients F (polyAdd (modulo_coefficients F (mulMod N a r)) e2))
    (hv : v = modulo_coefficients F (polyAdd (modulo_coefficients F
        (polyAdd (modulo_coefficients F (mulMod N t r)) e3))
        (scale_coefficients F (trim m)))) :
    decrypt F N s (u, v) = m ++ List.replicate (N - m.length) 0 := by
  -- numeric groundwork
  have hN1 : 1 ≤ (N : ℤ) := by exact_mod_cast hN
  have hQpos : 0 < F.Q := by
    have hB2 : 1 ≤ F.B ^ 2 := by nlinarith
    have h3 : 3 ≤ 2 * (N : ℤ) * F.B ^ 2 + F.B := by nlinarith
    omega
  have hμ0 : moduloRef F.Q 0 = 0 := moduloRef_zero hQpos
  have hmodc : ∀ (p : List ℤ) (k : ℕ),
      coeff (modulo_coefficients F p) k = moduloRef F.Q (coeff p k) := by
    intro p k
    unfold modulo_coefficients
    rw [hmod]
    exact coeff_mapTrim _ hμ0 p k
  have hhalf : 2 * closest_integer_div_two F.Q = F.Q + 1 := by
    unfold closest_integer_div_two
    omega
  have ht00 : 0 ≤ closest_integer_div_two F.Q / 2 := by omega
  have hscalec : ∀ (p : List ℤ) (k : ℕ),
      coeff (scale_coefficients F p) k
        = closest_integer_div_two F.Q * coeff p k := by
    intro p k
    unfold scale_coefficients
    exact coeff_mapTrim _ (mul_zero _) p k
  have hroundc : ∀ (p : List ℤ) (k : ℕ),
      coeff (round_coefficients F p) k
        = if closest_integer_div_two F.Q / 2 < |coeff p k| then 1 else 0 := by
    intro p k
    unfold round_coefficients
    refine coeff_mapTrim _ ?_ p k
    rw [abs_zero, if_neg (not_lt.mpr ht00)]
  -- lengths
  have hlen_modc : ∀ p : List ℤ, (modulo_coefficients F p).length ≤ p.length :=
    fun p => mapTrim_length_le _ _
  have hlt : t.length ≤ N := by
    rw [ht]
    refine le_trans (hlen_modc _) ?_
    rw [polyAdd_length]
    exact max_le (le_trans (hlen_modc _) (le_of_eq (mulMod_length _ _ _))) he
  have hlv : v.length ≤ N := by
    rw [hv]
    refine le_trans (hlen_modc _) ?_
    rw [polyAdd_length]
    refine max_le ?_ ?_
    · refine le_trans (hlen_modc _) ?_
      rw [polyAdd_length]
      exact max_le (le_trans (hlen_modc _) (le_of_eq (mulMod_length _ _ _))) he3
    · exact le_trans (mapTrim_length_le _ _) (le_trans (trim_length_le _) hmlen)
  -- decrypt unfolding
  set m1 : List ℤ :=
    modulo_coefficients F (polySub v (modulo_coefficients F (mulMod N u s)))
    with hm1def
  have hdec : decrypt F N s (u, v)
      = to_fixed_coeffs_vec N (round_coefficients F m1) := by
    rw [hm1def]
    rfl
  have hlm1 : m1.length ≤ N := by
    rw [hm1def]
    refine le_trans (hlen_modc _) ?_
    rw [polySub_length]
    exact max_le hlv (le_trans (hlen_modc _) (le_of_eq (mulMod_length _ _ _)))
  -- supports
  have hfa : ∀ i, N ≤ i → coeff a i = 0 :=
    fun i hi => coeff_eq_zero_of_length_le (ha.trans hi)
  have hfs : ∀ i, N ≤ i → coeff s i = 0 :=
    fun i hi => coeff_eq_zero_of_length_le (hs.trans hi)
  have hfe : ∀ i, N ≤ i → coeff e i = 0 :=
    fun i hi => coeff_eq_zero_of_length_le (he.trans hi)
  have hfr : ∀ i, N ≤ i → coeff r i = 0 :=
    fun i hi => coeff_eq_zero_of_length_le (hr.trans hi)
  have hfe2 : ∀ i, N ≤ i → coeff e2 i = 0 :=
    fun i hi => coeff_eq_zero_of_length_le (he2.trans hi)
  -- the negacyclic exchange
  have hex : mulMod N (mulMod N a s) r = mulMod N (mulMod N a r) s :=
    mulMod_exchange ha hs hr
  -- per-coefficient congruence
  have hw_cong : ∀ k, k < N →
      coeff m1 k ≡
        (coeff (mulMod N e r) k + coeff e3 k - coeff (mulMod N e2 s) k)
          + closest_integer_div_two F.Q * coeff m k [ZMOD F.Q] := by
    intro k hkN
    have h1 : coeff m1 k
        = moduloRef F.Q (coeff v k - moduloRef F.Q (coeff (mulMod N u s) k)) := by
      rw [hm1def, hmodc, coeff_polySub, hmodc]
    have step1 : coeff m1 k ≡ coeff v k - coeff (mulMod N u s) k [ZMOD F.Q] := by
      rw [h1]
      exact (moduloRef_modEq _ _).trans ((Int.ModEq.refl _).sub (moduloRef_modEq _ _))
    have hveq : coeff v k
        = moduloRef F.Q (moduloRef F.Q (moduloRef F.Q (coeff (mulMod N t r) k)
            + coeff e3 k) + closest_integer_div_two F.Q * coeff m k) := by
      rw [hv, hmodc, coeff_polyAdd, hmodc, coeff_polyAdd, hmodc, hscalec, coeff_trim]
    have stepv : coeff v k ≡ coeff (mulMod N t r) k + coeff e3 k
        + closest_integer_div_two F.Q * coeff m k [ZMOD F.Q] := by
      rw [hveq]
      have hi : moduloRef F.Q (moduloRef F.Q (coeff (mulMod N t r) k) + coeff e3 k)
          ≡ coeff (mulMod N t r) k + coeff e3 k [ZMOD F.Q] :=
        (moduloRef_modEq _ _).trans (Int.ModEq.add_right _ (moduloRef_modEq _ _))
      exact (moduloRef_modEq _ _).trans (Int.ModEq.add_right _ hi)
    have ht_cong : ∀ i, coeff t i ≡ coeff (mulMod N a s) i + coeff e i [ZMOD F.Q] := by
      intro i
      have heq : coeff t i
          = moduloRef F.Q (moduloRef F.Q (coeff (mulMod N a s) i) + coeff e i) := by
        rw [ht, hmodc, coeff_polyAdd, hmodc]
      rw [heq]
      exact (moduloRef_modEq _ _).trans (Int.ModEq.add_right _ (moduloRef_modEq _ _))
    have hu_cong : ∀ i, coeff u i ≡ coeff (mulMod N a r) i + coeff e2 i [ZMOD F.Q] := by
      intro i
      have heq : coeff u i
          = moduloRef F.Q (moduloRef F.Q (coeff (mulMod N a r) i) + coeff e2 i) := by
        rw [hu, hmodc, coeff_polyAdd, hmodc]
      rw [heq]
      exact (moduloRef_modEq _ _).trans (Int.ModEq.add_right _ (moduloRef_modEq _ _))
    have steptr : coeff (mulMod N t r) k ≡
        coeff (mulMod N (mulMod N a s) r) k + coeff (mulMod N e r) k [ZMOD F.Q] := by
      have hL : ∀ j, cc (coeff t) (coeff r) j
          ≡ cc (coeff (mulMod N a s)) (coeff r) j + cc (coeff e) (coeff r) j
            [ZMOD F.Q] := by
        intro j
        have hc := cc_modEq_left (coeff t)
          (fun i => coeff (mulMod N a s) i + coeff e i) ht_cong (coeff r) j
        rwa [cc_add_left] at hc
      rw [coeff_mulMod N t r k, if_pos hkN, coeff_mulMod N (mulMod N a s) r k,
        if_pos hkN, coeff_mulMod N e r k, if_pos hkN]
      have h2 := (hL k).sub (hL (k + N))
      have heq : (cc (coeff (mulMod N a s)) (coeff r) k + cc (coeff e) (coeff r) k)
            - (cc (coeff (mulMod N a s)) (coeff r) (k + N)
                + cc (coeff e) (coeff r) (k + N))
          = (cc (coeff (mulMod N a s)) (coeff r) k
                - cc (coeff (mulMod N a s)) (coeff r) (k + N))
            + (cc (coeff e) (coeff r) k - cc (coeff e) (coeff r) (k + N)) := by
        ring
      rwa [heq] at h2
    have stepus : coeff (mulMod N u s) k ≡
        coeff (mulMod N (mulMod N a r) s) k + coeff (mulMod N e2 s) k [ZMOD F.Q] := by
      have hL : ∀ j, cc (coeff u) (coeff s) j
          ≡ cc (coeff (mulMod N a r)) (coeff s) j + cc (coeff e2) (coeff s) j
            [ZMOD F.Q] := by
        intro j
        have hc := cc_modEq_left (coeff u)
          (fun i => coeff (mulMod N a r) i + coeff e2 i) hu_cong (coeff s) j
        rwa [cc_add_left] at hc
      rw [coeff_mulMod N u s k, if_pos hkN, coeff_mulMod N (mulMod N a r) s k,
        if_pos hkN, coeff_mulMod N e2 s k, if_pos hkN]
      have h2 := (hL k).sub (hL (k + N))
      have heq : (cc (coeff (mulMod N a r)) (coeff s) k + cc (coeff e2) (coeff s) k)
            - (cc (coeff (mulMod N a r)) (coeff s) (k + N)
                + cc (coeff e2) (coeff s) (k + N))
          = (cc (coeff (mulMod N a r)) (coeff s) k
                - cc (coeff (mulMod N a r)) (coeff s) (k + N))
            + (cc (coeff e2) (coeff s) k - cc (coeff e2) (coeff s) (k + N)) := by
        ring
      rwa [heq] at h2
    have hv2 : coeff v k ≡
        coeff (mulMod N (mulMod N a s) r) k + coeff (mulMod N e r) k + coeff e3 k
          + closest_integer_div_two F.Q * coeff m k [ZMOD F.Q] :=
      stepv.trans (Int.ModEq.add_right _ (Int.ModEq.add_right _ steptr))
    have h3 := step1.trans (hv2.sub stepus)
    rw [hex] at h3
    have heq : coeff (mulMod N (mulMod N a r) s) k + coeff (mulMod N e r) k
          + coeff e3 k + closest_integer_div_two F.Q * coeff m k
          - (coeff (mulMod N (mulMod N a r) s) k + coeff (mulMod N e2 s) k)
        = (coeff (mulMod N e r) k + coeff e3 k - coeff (mulMod N e2 s) k)
          + closest_integer_div_two F.Q * coeff m k := by
      ring
    rwa [heq] at h3
  -- final extensionality
  have hroundlen : (round_coefficients F m1).length ≤ N :=
    le_trans (mapTrim_length_le _ _) hlm1
  have hlenL : (decrypt F N s (u, v)).length = N := by
    rw [hdec]
    exact to_fixed_coeffs_vec_length hroundlen
  apply eq_of_coeff_eq
  · rw [hlenL]
    exact (to_fixed_coeffs_vec_length hmlen).symm
  · intro k hk
    have hkN : k < N := by rwa [hlenL] at hk
    have hRHS : coeff (m ++ List.replicate (N - m.length) 0) k = coeff m k :=
      coeff_to_fixed_coeffs_vec N m k
    rw [hdec, coeff_to_fixed_coeffs_vec, hroundc, hRHS]
    -- noise bounds
    have hEr : |coeff (mulMod N e r) k| ≤ (N : ℤ) * (F.B * F.B) := by
      rw [coeff_mulMod, if_pos hkN]
      exact mulMod_coeff_abs_le heB hfe hrB hfr hkN
    have hE2s : |coeff (mulMod N e2 s) k| ≤ (N : ℤ) * (F.B * F.B) := by
      rw [coeff_mulMod, if_pos hkN]
      exact mulMod_coeff_abs_le he2B hfe2 hsB hfs hkN
    have hE3 : |coeff e3 k| ≤ F.B := he3B k
    set w : ℤ := coeff (mulMod N e r) k + coeff e3 k - coeff (mulMod N e2 s) k
      with hwdef
    set W : ℤ := 2 * (N : ℤ) * (F.B * F.B) + F.B with hWdef
    have hWQ : W < F.Q / 4 := by
      rw [hWdef]
      have hq := hQ4
      rw [show F.B ^ 2 = F.B * F.B from pow_two F.B] at hq
      linarith
    have hwabs : |w| ≤ W := by
      rw [hwdef, hWdef]
      have h1 : |coeff (mulMod N e r) k + coeff e3 k - coeff (mulMod N e2 s) k|
          ≤ |coeff (mulMod N e r) k + coeff e3 k| + |coeff (mulMod N e2 s) k| := by
        have habs := abs_add (coeff (mulMod N e r) k + coeff e3 k)
          (-(coeff (mulMod N e2 s) k))
        rwa [abs_neg, ← sub_eq_add_neg] at habs
      have h2 : |coeff (mulMod N e r) k + coeff e3 k|
          ≤ |coeff (mulMod N e r) k| + |coeff e3 k| := abs_add _ _
      linarith
    obtain ⟨hw1, hw2⟩ := abs_le.mp hwabs
    have hcong := hw_cong k hkN
    rw [← hwdef] at hcong
    -- the centred value is determined
    have hXabs : 2 * |coeff m1 k| ≤ F.Q - 1 := by
      have hXeq : coeff m1 k = moduloRef F.Q
          (coeff (polySub v (modulo_coefficients F (mulMod N u s))) k) := by
        rw [hm1def, hmodc]
      rw [hXeq]
      exact moduloRef_abs hQpos hodd _
    -- per-bit case analysis
    have hmk : coeff m k = 0 ∨ coeff m k = 1 := by
      rcases lt_or_le k m.length with hc | hc
      · have hmem : coeff m k ∈ m := by
          rw [coeff, List.getD_eq_getElem _ _ hc]
          exact List.getElem_mem _
        exact hbits _ hmem
      · exact Or.inl (coeff_eq_zero_of_length_le hc)
    rcases hmk with hm0 | hm1
    · rw [hm0, mul_zero, add_zero] at hcong
      have hws : 2 * |w| ≤ F.Q - 1 := by
        rcases abs_cases w with ⟨hl, _⟩ | ⟨hl, _⟩ <;> omega
      have hXw : coeff m1 k = w := eq_of_modEq_of_small hQpos hcong hXabs hws
      have hcond : ¬ (closest_integer_div_two F.Q / 2 < |w|) := by
        rw [not_lt]
        rcases abs_cases w with ⟨hl, _⟩ | ⟨hl, _⟩ <;> omega
      rw [hm0, hXw, if_neg hcond]
    · rw [hm1, mul_one] at hcong
      rcases le_or_lt 0 w with hwpos | hwneg
      · have hzc : w + closest_integer_div_two F.Q - F.Q
            ≡ w + closest_integer_div_two F.Q [ZMOD F.Q] := by
          unfold Int.ModEq
          simp [Int.sub_emod, Int.emod_emod_of_dvd]
        have hzs : 2 * |w + closest_integer_div_two F.Q - F.Q| ≤ F.Q - 1 := by
          rcases abs_cases (w + closest_integer_div_two F.Q - F.Q) with
            ⟨hl, _⟩ | ⟨hl, _⟩ <;> omega
        have hXz : coeff m1 k = w + closest_integer_div_two F.Q - F.Q :=
          eq_of_modEq_of_small hQpos (hcong.trans hzc.symm) hXabs hzs
        have hcond : closest_integer_div_two F.Q / 2
            < |w + closest_integer_div_two F.Q - F.Q| := by
          rcases abs_cases (w + closest_integer_div_two F.Q - F.Q) with
            ⟨hl, _⟩ | ⟨hl, _⟩ <;> omega
        rw [hm1, hXz, if_pos hcond]
      · have hzs : 2 * |w + closest_integer_div_two F.Q| ≤ F.Q - 1 := by
          rcases abs_cases (w + closest_integer_div_two F.Q) with
            ⟨hl, _⟩ | ⟨hl, _⟩ <;> omega
        have hXz : coeff m1 k = w + closest_integer_div_two F.Q :=
          eq_of_modEq_of_small hQpos hcong hXabs hzs
        have hcond : closest_integer_div_two F.Q / 2
            < |w + closest_integer_div_two F.Q| := by
          rcases abs_cases (w + closest_integer_div_two F.Q) with
            ⟨hl, _⟩ | ⟨hl, _⟩ <;> omega
        rw [hm1, hXz, if_pos hcond]

theorem small_polynomial_length (F : IntFieldP) (N : ℕ) (g : ℕ → ℤ) :
    (small_polynomial F N g).length ≤ N :=
  rand_polynomial_within_length N (-F.B) F.B g

theorem rand_polynomial_length (F : IntFieldP) (N : ℕ) (g : ℕ → ℤ) :
    (rand_polynomial F N g).length ≤ N :=
  rand_polynomial_within_length N (-(F.Q / 2)) (F.Q / 2) g

theorem small_polynomial_coeff_abs (F : IntFieldP) (N : ℕ) (g : ℕ → ℤ)
    (hB : 0 ≤ F.B) (i : ℕ) : |coeff (small_polynomial F N g) i| ≤ F.B := by
  unfold small_polynomial
  rw [coeff_rand_polynomial_within]
  split
  · exact abs_le.mpr (genRange_mem (by linarith) (g i))
  · simpa using hB

/-- General shape facts used by several claims. -/
theorem key_gen_lengths (F : IntFieldP) (N : ℕ) (g : ℕ → ℤ) :
    (key_gen F N g).1.1.length ≤ N ∧ (key_gen F N g).1.2.length ≤ N ∧
      (key_gen F N g).2.length ≤ N := by
  refine ⟨by rw [key_gen_a]; exact rand_polynomial_length F N _, ?_,
    by rw [key_gen_s]; exact small_polynomial_length F N _⟩
  rw [key_gen_t]
  refine le_trans (mapTrim_length_le _ _) ?_
  rw [polyAdd_length]
  exact max_le (le_trans (mapTrim_length_le _ _) (le_of_eq (mulMod_length _ _ _)))
    (small_polynomial_length F N _)

theorem encrypt_lengths (F : IntFieldP) (N : ℕ) (a t m : List ℤ) (g : ℕ → ℤ)
    (hm : m.length ≤ N) :
    (encrypt F N a t m g).1.length ≤ N ∧ (encrypt F N a t m g).2.length ≤ N := by
  constructor
  · rw [encrypt_fst]
    refine le_trans (mapTrim_length_le _ _) ?_
    rw [polyAdd_length]
    exact max_le
      (le_trans (mapTrim_length_le _ _) (le_of_eq (mulMod_length _ _ _)))
      (small_polynomial_length F N _)
  · rw [encrypt_snd]
    refine le_trans (mapTrim_length_le _ _) ?_
    rw [polyAdd_length]
    refine max_le ?_ ?_
    · refine le_trans (mapTrim_length_le _ _) ?_
      rw [polyAdd_length]
      exact max_le
        (le_trans (mapTrim_length_le _ _) (le_of_eq (mulMod_length _ _ _)))
        (small_polynomial_length F N _)
    · exact le_trans (mapTrim_length_le _ _) (le_trans (trim_length_le _) hm)

theorem decrypt_length (F : IntFieldP) (N : ℕ) (s u v : List ℤ)
    (hv : v.length ≤ N) : (decrypt F N s (u, v)).length = N := by
  rw [decrypt_eq]
  refine to_fixed_coeffs_vec_length ?_
  refine le_trans (mapTrim_length_le _ _) (le_trans (mapTrim_length_le _ _) ?_)
  rw [polySub_length]
  exact max_le hv (le_trans (mapTrim_length_le _ _) (le_of_eq (mulMod_length _ _ _)))

theorem decrypt_mem_bits (F : IntFieldP) (N : ℕ) (s u v : List ℤ) :
    ∀ x ∈ decrypt F N s (u, v), x = 0 ∨ x = 1 := by
  intro x hx
  rw [decrypt_eq, to_fixed_coeffs_vec] at hx
  rcases List.mem_append.mp hx with h | h
  · rcases List.mem_map.mp (mem_trim h) with ⟨c, _, rfl⟩
    by_cases hc : closest_integer_div_two F.Q / 2 < |c|
    · right; simp [hc]
    · left; simp [hc]
  · exact Or.inl (List.eq_of_mem_replicate h)

/-- C1 (amended: the hypothesis is the parameter bound
`2N·B² + B < ⌊Q/4⌋` that `valid()` is documented to check — the `valid()`
in the code omits the factor `N`, see C2): for every field parameterisation
with the centred reference modulo, odd positive modulus, and `B ≥ 1`
satisfying the bound, every bit vector `m` of length `L ≤ N`, and every
pair of randomness seeds, `decrypt(key_gen().dk, key_gen().ek.encrypt(m))`
equals `m` on its first `L` entries and `0` on the remaining `N - L`. -/
theorem C1_round_trip (F : IntFieldP) (N : ℕ) (g g' : ℕ → ℤ) (m : List ℤ)
    (hmod : F.modulo = moduloRef F.Q) (hodd : F.Q % 2 = 1) (hN : 0 < N)
    (hB : 1 ≤ F.B) (hQ4 : 2 * (N : ℤ) * F.B ^ 2 + F.B < F.Q / 4)
    (hmlen : m.length ≤ N) (hbits : ∀ x ∈ m, x = 0 ∨ x = 1) :
    decrypt F N (key_gen F N g).2
        (encrypt F N (key_gen F N g).1.1 (key_gen F N g).1.2 m g')
      = m ++ List.replicate (N - m.length) 0 := by
  have hB0 : 0 ≤ F.B := by omega
  exact decrypt_correct F N
    (rand_polynomial F N (fun i => g i))
    (small_polynomial F N (fun i => g (N + i)))
    (small_polynomial F N (fun i => g (2 * N + i)))
    (small_polynomial F N (fun i => g' i))
    (small_polynomial F N (fun i => g' (N + i)))
    (small_polynomial F N (fun i => g' (2 * N + i)))
    m _ _ _
    hmod hodd hN hB hQ4
    (rand_polynomial_length F N _)
    (small_polynomial_length F N _)
    (small_polynomial_length F N _)
    (small_polynomial_length F N _)
    (small_polynomial_length F N _)
    (small_polynomial_length F N _)
    (small_polynomial_coeff_abs F N _ hB0)
    (small_polynomial_coeff_abs F N _ hB0)
    (small_polynomial_coeff_abs F N _ hB0)
    (small_polynomial_coeff_abs F N _ hB0)
    (small_polynomial_coeff_abs F N _ hB0)
    hmlen hbits rfl rfl rfl

/-! ## Claim theorems -/

/-- C2 (code bug): `valid()` accepts with `2·B² + B < ⌊Q/4⌋`, omitting the
factor `N` its own doc comment (and the spec) require.  At `Q = 29`,
`B = 1`, `N = 4` it returns `true` although `2N·B² + B = 9 ≥ ⌊29/4⌋ = 7`. -/
theorem C2_valid_omits_N :
    valid ⟨29, 1, moduloRef 29⟩ = true ∧
      ¬ (2 * (4 : ℤ) * 1 ^ 2 + 1 < (29 : ℤ) / 4) := by
  constructor
  · decide
  · decide

/-- C3: decryption is total and fixed-length — for every decryption key `s`
and every ciphertext `(u, v)` (stored lengths at most `N`, the
`Polynomial<I, N>` type invariant), `decrypt` returns a vector of length
exactly `N` whose entries are all `0` or `1`. -/
theorem C3_decrypt_total (F : IntFieldP) (N : ℕ) (s u v : List ℤ)
    (_hu : u.length ≤ N) (hv : v.length ≤ N) :
    (decrypt F N s (u, v)).length = N ∧
      ∀ x ∈ decrypt F N s (u, v), x = 0 ∨ x = 1 :=
  ⟨decrypt_length F N s u v hv, decrypt_mem_bits F N s u v⟩

theorem C3_decrypt_total_witness :
    ([1, 2] : List ℤ).length ≤ 3 ∧ ([0, 1, 1] : List ℤ).length ≤ 3 ∧
      ((decrypt ⟨7, 1, moduloRef 7⟩ 3 [1] ([1, 2], [0, 1, 1])).length = 3 ∧
        ∀ x ∈ decrypt ⟨7, 1, moduloRef 7⟩ 3 [1] ([1, 2], [0, 1, 1]),
          x = 0 ∨ x = 1) :=
  ⟨by decide, by decide,
    C3_decrypt_total ⟨7, 1, moduloRef 7⟩ 3 [1] [1, 2] [0, 1, 1]
      (by decide) (by decide)⟩

/-- C4: every coefficient of the `a` polynomial produced by key generation
lies in the centred range `[-⌊Q/2⌋, ⌊Q/2⌋]` (key generation samples it via
`rand_polynomial`, whose bounds are `upper = Q/2, lower = -upper`). -/
theorem C4_keygen_a_centred (F : IntFieldP) (N : ℕ) (g : ℕ → ℤ)
    (hQ : 0 ≤ F.Q) :
    ∀ x ∈ (key_gen F N g).1.1, -(F.Q / 2) ≤ x ∧ x ≤ F.Q / 2 := by
  intro x hx
  rw [key_gen_a] at hx
  have hlh : -(F.Q / 2) ≤ F.Q / 2 := by omega
  exact mem_rand_polynomial_within hlh hx

theorem C4_keygen_a_centred_witness :
    (0 : ℤ) ≤ 29 ∧
      ∀ x ∈ (key_gen ⟨29, 1, moduloRef 29⟩ 4 (fun i => i)).1.1,
        -((29 : ℤ) / 2) ≤ x ∧ x ≤ (29 : ℤ) / 2 :=
  ⟨by decide, C4_keygen_a_centred ⟨29, 1, moduloRef 29⟩ 4 (fun i => i) (by decide)⟩

/-- C5: every small polynomial — `r`, `e2`, `e3` drawn by `encrypt` and
`s`, `e` drawn by key generation are all `small_polynomial` applications —
has all coefficients in `[-B, B]`; stated for every randomness stream, and
explicitly for the `s` component of `key_gen`. -/
theorem C5_small_in_B (F : IntFieldP) (N : ℕ) (hB : 1 ≤ F.B) :
    (∀ g : ℕ → ℤ, ∀ x ∈ small_polynomial F N g, -F.B ≤ x ∧ x ≤ F.B) ∧
      (∀ g : ℕ → ℤ, ∀ x ∈ (key_gen F N g).2, -F.B ≤ x ∧ x ≤ F.B) := by
  have hlh : -F.B ≤ F.B := by omega
  constructor
  · intro g x hx
    exact mem_rand_polynomial_within hlh hx
  · intro g x hx
    rw [key_gen_s] at hx
    exact mem_rand_polynomial_within hlh hx

theorem C5_small_in_B_witness :
    (1 : ℤ) ≤ 1 ∧
      (∀ x ∈ small_polynomial ⟨29, 1, moduloRef 29⟩ 4 (fun i => i),
        -(1 : ℤ) ≤ x ∧ x ≤ 1) ∧
      ∀ x ∈ (key_gen ⟨29, 1, moduloRef 29⟩ 4 (fun i => i)).2,
        -(1 : ℤ) ≤ x ∧ x ≤ 1 :=
  ⟨by decide,
    (C5_small_in_B ⟨29, 1, moduloRef 29⟩ 4 (by decide)).1 (fun i => i),
    (C5_small_in_B ⟨29, 1, moduloRef 29⟩ 4 (by decide)).2 (fun i => i)⟩

/-- C6: `round` emits 1 at a stored position exactly when
`|c| > closest_integer_div_two(Q) / 2` (integer division of ⌈Q/2⌉ by 2),
and the result has only 0/1 coefficients. -/
theorem C6_round_threshold (F : IntFieldP) (p : List ℤ) :
    (∀ k, k < p.length →
        coeff (round_coefficients F p) k
          = if closest_integer_div_two F.Q / 2 < |coeff p k| then 1 else 0) ∧
      ∀ x ∈ round_coefficients F p, x = 0 ∨ x = 1 := by
  constructor
  · intro k hk
    unfold round_coefficients
    rw [coeff_trim]
    unfold coeff
    rw [List.getD_eq_getElem _ _ (by simpa using hk), List.getD_eq_getElem _ _ hk]
    simp
  · intro x hx
    rcases List.mem_map.mp (mem_trim hx) with ⟨c, _, rfl⟩
    by_cases hc : closest_integer_div_two F.Q / 2 < |c|
    · right; simp [hc]
    · left; simp [hc]

theorem C6_round_threshold_witness :
    (1 : ℕ) < ([3, -9, 2] : List ℤ).length ∧
      coeff (round_coefficients ⟨29, 1, moduloRef 29⟩ [3, -9, 2]) 1
        = (if closest_integer_div_two (29 : ℤ) / 2 < |(-9 : ℤ)| then 1 else 0) ∧
      ∀ x ∈ round_coefficients ⟨29, 1, moduloRef 29⟩ [3, -9, 2], x = 0 ∨ x = 1 := by
  refine ⟨by decide, ?_, (C6_round_threshold ⟨29, 1, moduloRef 29⟩ [3, -9, 2]).2⟩
  have h := (C6_round_threshold ⟨29, 1, moduloRef 29⟩ [3, -9, 2]).1 1 (by decide)
  simpa using h

/-- C7: with the reference centred modulo, `mod_coeffs` is idempotent and
its output coefficients lie in the centred canonical range `(-Q/2, Q/2]`
(stated as `-Q < 2x ∧ 2x ≤ Q`). -/
theorem C7_mod_idem (F : IntFieldP) (p : List ℤ)
    (hmod : F.modulo = moduloRef F.Q) (hQ : 0 < F.Q) :
    modulo_coefficients F (modulo_coefficients F p) = modulo_coefficients F p ∧
      ∀ x ∈ modulo_coefficients F p, -F.Q < 2 * x ∧ 2 * x ≤ F.Q := by
  constructor
  · unfold modulo_coefficients
    rw [hmod]
    have hfix : ∀ x ∈ trim (p.map (moduloRef F.Q)), moduloRef F.Q x = x := by
      intro x hx
      rcases List.mem_map.mp (mem_trim hx) with ⟨c, _, rfl⟩
      exact moduloRef_idem hQ c
    rw [map_id_of_mem hfix, trim_idem]
  · intro x hx
    unfold modulo_coefficients at hx
    rw [hmod] at hx
    rcases List.mem_map.mp (mem_trim hx) with ⟨c, _, rfl⟩
    exact moduloRef_range hQ c

theorem C7_mod_idem_witness :
    (⟨7, 1, moduloRef 7⟩ : IntFieldP).modulo = moduloRef 7 ∧ (0 : ℤ) < 7 ∧
      (modulo_coefficients ⟨7, 1, moduloRef 7⟩
          (modulo_coefficients ⟨7, 1, moduloRef 7⟩ [-9, -6, 0, 6])
        = modulo_coefficients ⟨7, 1, moduloRef 7⟩ [-9, -6, 0, 6] ∧
        ∀ x ∈ modulo_coefficients ⟨7, 1, moduloRef 7⟩ [-9, -6, 0, 6],
          -(7 : ℤ) < 2 * x ∧ 2 * x ≤ 7) :=
  ⟨rfl, by decide, C7_mod_idem ⟨7, 1, moduloRef 7⟩ [-9, -6, 0, 6] rfl (by decide)⟩

/-- C8: message validation happens exactly at `Message::new` — it fails
precisely when the vector is longer than `N` or contains a non-bit entry —
while `encrypt` validates nothing and produces a ciphertext (a pair of
stored-length-at-most-`N` polynomials) for every coefficient vector of
length at most `N`, bit entries or not. -/
theorem C8_validation_at_message_new (N : ℕ) :
    (∀ data : List ℤ,
        messageNew N data = none
          ↔ ¬ (data.length ≤ N ∧ ∀ x ∈ data, x = 0 ∨ x = 1)) ∧
      ∀ (F : IntFieldP) (a t m : List ℤ) (g : ℕ → ℤ), m.length ≤ N →
        (encrypt F N a t m g).1.length ≤ N ∧ (encrypt F N a t m g).2.length ≤ N := by
  constructor
  · intro data
    unfold messageNew
    split
    next h => exact iff_of_false (by simp) (not_not_intro h)
    next h => exact iff_of_true rfl h
  · intro F a t m g hm
    exact encrypt_lengths F N a t m g hm

theorem C8_validation_at_message_new_witness :
    messageNew 4 [1, 0, 2] = none ∧
      ([1, 0, 2] : List ℤ).length ≤ 4 ∧
      (encrypt ⟨29, 1, moduloRef 29⟩ 4 [1] [1] [1, 0, 2] (fun _ => 0)).1.length ≤ 4 ∧
      (encrypt ⟨29, 1, moduloRef 29⟩ 4 [1] [1] [1, 0, 2] (fun _ => 0)).2.length ≤ 4 := by
  refine ⟨?_, by decide, ?_⟩
  · rw [(C8_validation_at_message_new 4).1 [1, 0, 2]]
    decide
  · exact (C8_validation_at_message_new 4).2 ⟨29, 1, moduloRef 29⟩ [1] [1] [1, 0, 2]
      (fun _ => 0) (by decide)

/-- C9: deserialization of an `EncryptKey` or `CipherText` succeeds exactly
when the stored vector has length `2N`, of a `DecryptKey` exactly when it
has length `N`; every failure is a length-mismatch error carrying
(expected, actual). -/
theorem C9_deserialize_length_check (N : ℕ) (vec : List ℤ) :
    ((∃ y, encryptKeyDeserialize N vec = Except.ok y) ↔ vec.length = 2 * N) ∧
      ((∃ y, cipherTextDeserialize N vec = Except.ok y) ↔ vec.length = 2 * N) ∧
      ((∃ y, decryptKeyDeserialize N vec = Except.ok y) ↔ vec.length = N) ∧
      (vec.length ≠ 2 * N →
        encryptKeyDeserialize N vec = Except.error (2 * N, vec.length) ∧
          cipherTextDeserialize N vec = Except.error (2 * N, vec.length)) ∧
      (vec.length ≠ N →
        decryptKeyDeserialize N vec = Except.error (N, vec.length)) := by
  unfold encryptKeyDeserialize cipherTextDeserialize decryptKeyDeserialize
  refine ⟨?_, ?_, ?_, ?_, ?_⟩
  · by_cases h : vec.length = 2 * N <;> simp [h]
  · by_cases h : vec.length = 2 * N <;> simp [h]
  · by_cases h : vec.length = N <;> simp [h]
  · intro h
    simp [h]
  · intro h
    simp [h]

theorem C9_deserialize_length_check_witness :
    (List.replicate 3 (0 : ℤ)).length ≠ 4 ∧
      decryptKeyDeserialize 4 (List.replicate 3 0) = Except.error (4, 3) := by
  refine ⟨by decide, ?_⟩
  have h := (C9_deserialize_length_check 4 (List.replicate 3 (0 : ℤ))).2.2.2.2
    (by decide)
  simpa using h

/-- C10 (implicit claim): none of `key_gen`, `encrypt`, `decrypt` consults
`valid()` — for every parameterisation, valid or not, each operation
produces a value of the documented shape; checking the bound is the
caller's job.  (In this embedding the non-enforcement is visible as the
absence of any validity hypothesis.) -/
theorem C10_no_validity_enforcement (F : IntFieldP) (N : ℕ) (g g' : ℕ → ℤ)
    (s u v m : List ℤ) (hm : m.length ≤ N) (hv : v.length ≤ N) :
    (key_gen F N g).1.1.length ≤ N ∧ (key_gen F N g).1.2.length ≤ N ∧
      (key_gen F N g).2.length ≤ N ∧
      (encrypt F N (key_gen F N g).1.1 (key_gen F N g).1.2 m g').1.length ≤ N ∧
      (encrypt F N (key_gen F N g).1.1 (key_gen F N g).1.2 m g').2.length ≤ N ∧
      (decrypt F N s (u, v)).length = N := by
  obtain ⟨h1, h2, h3⟩ := key_gen_lengths F N g
  obtain ⟨h4, h5⟩ := encrypt_lengths F N (key_gen F N g).1.1 (key_gen F N g).1.2 m g' hm
  exact ⟨h1, h2, h3, h4, h5, decrypt_length F N s u v hv⟩

theorem C10_no_validity_enforcement_witness :
    valid ⟨7, 5, moduloRef 7⟩ = false ∧
      ¬ (2 * (4 : ℤ) * 5 ^ 2 + 5 < (7 : ℤ) / 4) ∧
      ([1, 1, 0] : List ℤ).length ≤ 4 ∧ ([2, 3] : List ℤ).length ≤ 4 ∧
      ((key_gen ⟨7, 5, moduloRef 7⟩ 4 (fun _ => 1)).1.1.length ≤ 4 ∧
        (key_gen ⟨7, 5, moduloRef 7⟩ 4 (fun _ => 1)).1.2.length ≤ 4 ∧
        (key_gen ⟨7, 5, moduloRef 7⟩ 4 (fun _ => 1)).2.length ≤ 4 ∧
        (encrypt ⟨7, 5, moduloRef 7⟩ 4 (key_gen ⟨7, 5, moduloRef 7⟩ 4 (fun _ => 1)).1.1
            (key_gen ⟨7, 5, moduloRef 7⟩ 4 (fun _ => 1)).1.2 [1, 1, 0]
            (fun _ => 2)).1.length ≤ 4 ∧
        (encrypt ⟨7, 5, moduloRef 7⟩ 4 (key_gen ⟨7, 5, moduloRef 7⟩ 4 (fun _ => 1)).1.1
            (key_gen ⟨7, 5, moduloRef 7⟩ 4 (fun _ => 1)).1.2 [1, 1, 0]
            (fun _ => 2)).2.length ≤ 4 ∧
        (decrypt ⟨7, 5, moduloRef 7⟩ 4 [1] ([0], [2, 3])).length = 4) :=
  ⟨by decide, by decide, by decide, by decide,
    C10_no_validity_enforcement ⟨7, 5, moduloRef 7⟩ 4 (fun _ => 1) (fun _ => 2)
      [1] [0] [2, 3] [1, 1, 0] (by decide) (by decide)⟩

/-- C1 counterexample: the claim as stated — round-trip correctness for
every parameterisation accepted by the code's `valid()` — is false.  At
`Q = 29, B = 1, N = 4` (accepted: `2B² + B = 3 < ⌊29/4⌋ = 7`) there is a
randomness seed under which decrypting the encryption of the empty message
yields `[0, 0, 0, 1]` instead of four zeros: the accumulated noise
`e·r + e3 − e2·s` reaches 9 > ⌈29/2⌉/2 = 7 because the true bound is
`2N·B² + B = 9`, which `valid()` fails to check. -/
theorem C1_round_trip_counterexample :
    valid ⟨29, 1, moduloRef 29⟩ = true ∧
      (⟨29, 1, moduloRef 29⟩ : IntFieldP).modulo = moduloRef 29 ∧
      ([] : List ℤ).length ≤ 4 ∧
      decrypt ⟨29, 1, moduloRef 29⟩ 4
          (key_gen ⟨29, 1, moduloRef 29⟩ 4 (fun i => if i < 4 then 0 else 1)).2
          (encrypt ⟨29, 1, moduloRef 29⟩ 4
            (key_gen ⟨29, 1, moduloRef 29⟩ 4 (fun i => if i < 4 then 0 else 1)).1.1
            (key_gen ⟨29, 1, moduloRef 29⟩ 4 (fun i => if i < 4 then 0 else 1)).1.2
            []
            (fun i => if i < 4 then 1 else if i < 8 then -1 else
              if i = 11 then 1 else 0))
        ≠ [] ++ List.replicate 4 0 := by
  refine ⟨by decide, rfl, by decide, ?_⟩
  decide

theorem C1_round_trip_witness :
    (⟨41, 1, moduloRef 41⟩ : IntFieldP).modulo = moduloRef 41 ∧
      (⟨41, 1, moduloRef 41⟩ : IntFieldP).Q % 2 = 1 ∧
      0 < 4 ∧
      (1 : ℤ) ≤ (⟨41, 1, moduloRef 41⟩ : IntFieldP).B ∧
      2 * ((4 : ℕ) : ℤ) * (⟨41, 1, moduloRef 41⟩ : IntFieldP).B ^ 2
          + (⟨41, 1, moduloRef 41⟩ : IntFieldP).B
        < (⟨41, 1, moduloRef 41⟩ : IntFieldP).Q / 4 ∧
      ([0, 1] : List ℤ).length ≤ 4 ∧
      decrypt ⟨41, 1, moduloRef 41⟩ 4 (key_gen ⟨41, 1, moduloRef 41⟩ 4 (fun _ => 1)).2
          (encrypt ⟨41, 1, moduloRef 41⟩ 4
            (key_gen ⟨41, 1, moduloRef 41⟩ 4 (fun _ => 1)).1.1
            (key_gen ⟨41, 1, moduloRef 41⟩ 4 (fun _ => 1)).1.2
            [0, 1] (fun _ => 1))
        = [0, 1] ++ List.replicate (4 - ([0, 1] : List ℤ).length) 0 :=
  ⟨rfl, by decide, by decide, by decide, by decide, by decide,
    C1_round_trip ⟨41, 1, moduloRef 41⟩ 4 (fun _ => 1) (fun _ => 1) [0, 1]
      rfl (by decide) (by decide) (by decide) (by decide) (by decide) (by decide)⟩

end RingLwe
